import Mathlib

/-!
Verification of the encrypted-chunk container codec and the
fragmentation/reassembly subsystem of a secure-backup program.

The embedding follows the source: `src/core/encryptor.py` (PKCS7 padding,
per-chunk IV + AES-256-CBC units, `salt || unit*` containers read back in
fixed-size slices), `src/core/storage.py` / `src/core/cloud_storage.py`
(`fragment_file`: byte-range fragments named `<stem>.partNNN` plus a
metadata manifest) and `src/core/restore.py` (`restore_fragments`: glob
`*.part*`, lexicographic sort, concatenation, warn-and-continue size check).

Bytes are modelled as `List Nat`.  The AES-256-CBC transformation applied by
the external `cryptography` library is kept abstract: theorems are
parameterised by the encryption and decryption maps `enc`/`dec` together
with the library-documented facts used (length preservation and
decrypt-inverts-encrypt on block-aligned data).  The PBKDF2 key-derivation
map is likewise an abstract deterministic function `kdf`.
-/

namespace Backup

/-- Byte strings are lists of naturals (each byte a value below 256). -/
abbrev Bytes := List Nat

/-! ## PKCS7 padding (as applied by `padding.PKCS7(128)` in `encrypt_chunk`
and stripped in `decrypt_chunk`) -/

/-- PKCS7 padding to a multiple of the 16-byte AES block: append
`16 - len % 16` copies of that value (a full block when already aligned). -/
def pkcs7pad (d : Bytes) : Bytes :=
  d ++ List.replicate (16 - d.length % 16) (16 - d.length % 16)

/-- PKCS7 unpadding.  Returns `none` (the library raises `ValueError`,
surfaced as the spec's `PaddingError`) when the trailing padding bytes are
not well-formed: empty input, pad value outside `1..16`, pad value larger
than the data, or trailing bytes not all equal to the pad value. -/
def pkcs7unpad (d : Bytes) : Option Bytes :=
  match d.getLast? with
  | none => none
  | some k =>
    if 1 ≤ k ∧ k ≤ 16 ∧ k ≤ d.length ∧ (d.drop (d.length - k)).all (fun b => b = k) then
      some (d.take (d.length - k))
    else
      none

/-! ## Chunk codec (`encrypt_chunk` / `decrypt_chunk`) -/

/-- `encrypt_chunk` from `encryptor.py`: pad the chunk, encrypt it with the
(abstract) AES-256-CBC map under `key` and the fresh 16-byte `iv`, and
return `iv ++ ciphertext`. -/
def encrypt_chunk (enc : Bytes → Bytes → Bytes → Bytes) (key iv data : Bytes) : Bytes :=
  iv ++ enc key iv (pkcs7pad data)

/-- `decrypt_chunk` from `encryptor.py`: split the unit into the 16-byte IV
and the ciphertext, CBC-decrypt, strip PKCS7 padding.  `none` models the
exceptions the library raises: an IV shorter than 16 bytes, a ciphertext
that is not block-aligned (`decryptor.finalize`), or malformed padding. -/
def decrypt_chunk (dec : Bytes → Bytes → Bytes → Bytes) (key unit : Bytes) : Option Bytes :=
  if unit.length < 16 then none
  else if (unit.drop 16).length % 16 = 0 then
    pkcs7unpad (dec key (unit.take 16) (unit.drop 16))
  else none

/-! ## Reading a stream in fixed-size slices (the `while True: f.read(n)`
loops of `encrypt_file` and `decrypt_file`) -/

/-- Fuel-driven worker for `chunkSplit` (structural recursion so that the
kernel can evaluate it). -/
def chunkGo (c : Nat) : Nat → Bytes → List Bytes
  | _, [] => []
  | 0, _ :: _ => []
  | Nat.succ fuel, a :: p => ((a :: p).take c) :: chunkGo c fuel ((a :: p).drop c)

/-- Split `p` into successive slices of at most `c` bytes, as the read loop
`f.read(c)` does; `c = 0` yields no slices (`read(0)` returns the empty
byte string, ending the loop at once). -/
def chunkSplit (c : Nat) (p : Bytes) : List Bytes :=
  if c = 0 then [] else chunkGo c p.length p

/-! ## Container codec (`encrypt_file` / `decrypt_file`) -/

/-- Encrypt the chunk list in order, drawing the IV for the chunk at
position `i` from the stream `ivs` (modelling one `os.urandom(16)` call per
chunk). -/
def encUnits (enc : Bytes → Bytes → Bytes → Bytes) (key : Bytes) (ivs : Nat → Bytes) :
    Nat → List Bytes → List Bytes
  | _, [] => []
  | i, ch :: rest => encrypt_chunk enc key (ivs i) ch :: encUnits enc key ivs (i + 1) rest

/-- `encrypt_file` from `encryptor.py`: derive the key from the password and
the fresh 16-byte `salt`, split the plaintext at the chunk size `c`
(default `1024*1024`), encrypt each chunk, and write
`salt ++ unit_1 ++ unit_2 ++ ...` with no per-unit framing. -/
def encrypt_file (enc : Bytes → Bytes → Bytes → Bytes) (kdf : Bytes → Bytes → Bytes)
    (pw salt : Bytes) (ivs : Nat → Bytes) (c : Nat) (p : Bytes) : Bytes :=
  salt ++ (encUnits enc (kdf pw salt) ivs 0 (chunkSplit c p)).flatten

/-- Decrypt a list of units in order; the first failing unit aborts the
whole operation (the exception propagates out of the Python map). -/
def decryptUnits (dec : Bytes → Bytes → Bytes → Bytes) (key : Bytes) :
    List Bytes → Option (List Bytes)
  | [] => some []
  | u :: rest =>
    match decrypt_chunk dec key u with
    | none => none
    | some d =>
      match decryptUnits dec key rest with
      | none => none
      | some ds => some (d :: ds)

/-- `decrypt_file` from `encryptor.py`: re-read the first 16 bytes as the
salt, re-derive the key, slice the remainder into reads of
`chunk_size + 16 + 16` bytes, and decrypt each slice as one unit; the
decrypted chunks are written out in order. -/
def decrypt_file (dec : Bytes → Bytes → Bytes → Bytes) (kdf : Bytes → Bytes → Bytes)
    (pw : Bytes) (c : Nat) (container : Bytes) : Option Bytes :=
  (decryptUnits dec (kdf pw (container.take 16))
    (chunkSplit (c + 16 + 16) (container.drop 16))).map List.flatten

/-! ## The container layout the specification claims (4-byte big-endian
length prefix per unit) — stated from the spec's words, for comparison with
`encrypt_file` -/

/-- Big-endian 4-byte encoding of a length. -/
def be32 (n : Nat) : Bytes :=
  [n / 2 ^ 24 % 256, n / 2 ^ 16 % 256, n / 2 ^ 8 % 256, n % 256]

/-- Modelled from the spec (§4.3, §6): the claimed container layout
`salt[16] | (len:u32-BE, unit)*`, each unit prefixed by its own 4-byte
big-endian length. -/
def framedContainer (enc : Bytes → Bytes → Bytes → Bytes) (kdf : Bytes → Bytes → Bytes)
    (pw salt : Bytes) (ivs : Nat → Bytes) (c : Nat) (p : Bytes) : Bytes :=
  salt ++ ((encUnits enc (kdf pw salt) ivs 0 (chunkSplit c p)).map
    (fun u => be32 u.length ++ u)).flatten

/-! ## Fragment naming (`f-string` `"stem.part{index:03d}"` in
`storage.fragment_file` and `cloud_storage.fragment_file`) -/

/-- Decimal digit characters (codes) of `n`, fuel-driven so the kernel can
evaluate it. -/
def decimalDigitsGo : Nat → Nat → List Nat
  | 0, _ => []
  | Nat.succ fuel, n =>
    if n < 10 then [48 + n] else decimalDigitsGo fuel (n / 10) ++ [48 + n % 10]

/-- Decimal digit character codes of `n` (most significant first). -/
def decimalDigits (n : Nat) : List Nat :=
  decimalDigitsGo (n + 1) n

/-- Character codes of Python's `f"{n:03d}"`: the decimal digits of `n`,
left-padded with `0` to a minimum width of 3 (wider numbers keep all their
digits). -/
def pad3 (n : Nat) : List Nat :=
  if n ≤ 999 then [48 + n / 100, 48 + n / 10 % 10, 48 + n % 10] else decimalDigits n

/-- Character codes of the literal `".part"`. -/
def partCodes : List Nat := [46, 112, 97, 114, 116]

/-- The fragment file name `f"{stem}.part{i:03d}"` (as character codes). -/
def fragName (stem : List Nat) (i : Nat) : List Nat :=
  stem ++ partCodes ++ pad3 i

/-! ## Fragmenter (`fragment_file` in `storage.py`; the byte-range and
naming logic of `cloud_storage.fragment_file` is identical) -/

/-- The manifest metadata written next to the fragments (`.metadata` file in
`storage.fragment_file`): original file name, total size, fragment size in
bytes, fragment count and the fragment names. -/
structure Metadata where
  original_file : List Nat
  file_size : Nat
  fragment_size : Nat
  num_fragments : Nat
  fragments : List (List Nat)
deriving DecidableEq, Repr

/-- `fragment_file` (byte-size core): fragment `i` covers
`start = i*s` to `end = min(start + s, file_size)`, so its bytes are
`(p.drop (i*s)).take s` (`List.take` clamps at the end of the list exactly
as `min` does); there are `(file_size + s - 1) / s` fragments, named
`fragName stem i`.  Returns the fragment files (name, contents) in index
order together with the metadata manifest. -/
def fragment_file (stem : List Nat) (s : Nat) (p : Bytes) :
    List (List Nat × Bytes) × Metadata :=
  let n := (p.length + s - 1) / s
  let frags := (List.range n).map (fun i => (fragName stem i, (p.drop (i * s)).take s))
  (frags,
    { original_file := stem
      file_size := p.length
      fragment_size := s
      num_fragments := n
      fragments := frags.map Prod.fst })

/-- The source function takes the fragment size in megabytes and converts it
with `fragment_size_mb * 1024 * 1024`. -/
def fragment_file_mb (stem : List Nat) (mb : Nat) (p : Bytes) :
    List (List Nat × Bytes) × Metadata :=
  fragment_file stem (mb * 1024 * 1024) p

/-! ## Reassembler (`restore_fragments` in `restore.py`) -/

/-- Does `pat` occur as a contiguous sublist of `l`?  (The `*.part*` glob
pattern holds of a name exactly when it contains `".part"`.) -/
def hasSub : List Nat → List Nat → Bool
  | pat, [] => pat.isEmpty
  | pat, a :: rest => pat.isPrefixOf (a :: rest) || hasSub pat rest

/-- Lexicographic comparison of names by character code, the order Python's
`sorted` applies to the globbed fragment paths (all in one directory, so
the comparison is on the file names). -/
def lexLe : List Nat → List Nat → Bool
  | [], _ => true
  | _ :: _, [] => false
  | a :: as, b :: bs => decide (a < b) || (decide (a = b) && lexLe as bs)

/-- Ordering of directory entries `(name, contents)` by name. -/
def nameLe (x y : List Nat × Bytes) : Prop := lexLe x.1 y.1 = true

instance : DecidableRel nameLe := fun x y => by unfold nameLe; infer_instance

/-- The single error `restore_fragments` can raise on a fragment directory
with a readable manifest: `ValueError("No se encontraron fragmentos en el
directorio")` when the `*.part*` glob matches nothing.  (The metadata file
is modelled as the separate `Metadata` argument, so the missing-metadata
`ValueError` does not arise here.) -/
inductive RestoreError where
  | noFragments
deriving DecidableEq, Repr

/-- `restore_fragments`: glob the `*.part*` entries of the directory, sort
them by name, and — unless none were found — concatenate their contents in
that order.  The final size check compares `metadata['file_size']` with the
actual length and merely warns on mismatch (modelled as the
`Option (expected × actual)` component of a successful result). -/
def restore_fragments (md : Metadata) (dir : List (List Nat × Bytes)) :
    Except RestoreError (Bytes × Option (Nat × Nat)) :=
  let sortedParts := List.insertionSort nameLe (dir.filter (fun e => hasSub partCodes e.1))
  if sortedParts.isEmpty then
    Except.error RestoreError.noFragments
  else
    let out := (sortedParts.map Prod.snd).flatten
    Except.ok (out, if md.file_size = out.length then none else some (md.file_size, out.length))

instance {ε α : Type} [DecidableEq ε] [DecidableEq α] : DecidableEq (Except ε α) := fun a b =>
  match a, b with
  | .ok x, .ok y =>
    if h : x = y then .isTrue (congrArg _ h) else .isFalse (fun hc => h (Except.ok.inj hc))
  | .error x, .error y =>
    if h : x = y then .isTrue (congrArg _ h) else .isFalse (fun hc => h (Except.error.inj hc))
  | .ok _, .error _ => .isFalse (fun hc => Except.noConfusion hc)
  | .error _, .ok _ => .isFalse (fun hc => Except.noConfusion hc)

/-! # Theorems

First the supporting lemmas about padding, chunking and sorting, then one
theorem per claim (with a witness where the theorem has hypotheses). -/

/-! ## PKCS7 padding -/

theorem pkcs7pad_length (d : Bytes) :
    (pkcs7pad d).length = d.length + (16 - d.length % 16) := by
  simp [pkcs7pad]

theorem pkcs7pad_length_mod (d : Bytes) : (pkcs7pad d).length % 16 = 0 := by
  rw [pkcs7pad_length]
  omega

theorem pkcs7unpad_pkcs7pad (d : Bytes) : pkcs7unpad (pkcs7pad d) = some d := by
  have hk : 1 ≤ 16 - d.length % 16 ∧ 16 - d.length % 16 ≤ 16 := by omega
  set k := 16 - d.length % 16 with hkdef
  have hk1 : k - 1 + 1 = k := by omega
  have hrep : List.replicate k k = List.replicate (k - 1) k ++ [k] := by
    conv_lhs => rw [show k = (k - 1) + 1 by omega]
    rw [List.replicate_succ', hk1]
  have hlast : (pkcs7pad d).getLast? = some k := by
    rw [pkcs7pad, ← hkdef, hrep, ← List.append_assoc, List.getLast?_concat]
  have hlen : (pkcs7pad d).length = d.length + k := by
    rw [pkcs7pad_length]
  unfold pkcs7unpad
  rw [hlast]
  dsimp only
  have hdrop : (pkcs7pad d).drop ((pkcs7pad d).length - k) = List.replicate k k := by
    rw [hlen, Nat.add_sub_cancel, pkcs7pad, ← hkdef, List.drop_left]
  have htake : (pkcs7pad d).take ((pkcs7pad d).length - k) = d := by
    rw [hlen, Nat.add_sub_cancel, pkcs7pad, ← hkdef, List.take_left]
  rw [if_pos]
  · rw [htake]
  · refine ⟨hk.1, hk.2, by omega, ?_⟩
    rw [hdrop]
    simp [List.all_eq_true]

/-! ## Chunk codec round trip -/

theorem decrypt_chunk_encrypt_chunk (enc dec : Bytes → Bytes → Bytes → Bytes)
    (hlen : ∀ k iv x, (enc k iv x).length = x.length)
    (hinv : ∀ k iv x, x.length % 16 = 0 → dec k iv (enc k iv x) = x)
    (key iv d : Bytes) (hiv : iv.length = 16) :
    decrypt_chunk dec key (encrypt_chunk enc key iv d) = some d := by
  unfold encrypt_chunk decrypt_chunk
  have hel : (enc key iv (pkcs7pad d)).length = (pkcs7pad d).length := hlen _ _ _
  have hlength : (iv ++ enc key iv (pkcs7pad d)).length = 16 + (pkcs7pad d).length := by
    simp [hel, hiv]
  have htake : (iv ++ enc key iv (pkcs7pad d)).take 16 = iv := List.take_left' hiv
  have hdrop : (iv ++ enc key iv (pkcs7pad d)).drop 16 = enc key iv (pkcs7pad d) :=
    List.drop_left' hiv
  have hpadlen : (pkcs7pad d).length % 16 = 0 := pkcs7pad_length_mod d
  rw [if_neg (by omega), hdrop, htake, hel, if_pos hpadlen,
    hinv _ _ _ hpadlen, pkcs7unpad_pkcs7pad]

theorem encrypt_chunk_length (enc : Bytes → Bytes → Bytes → Bytes)
    (hlen : ∀ k iv x, (enc k iv x).length = x.length)
    (key iv d : Bytes) (hiv : iv.length = 16) :
    (encrypt_chunk enc key iv d).length = 16 + d.length + (16 - d.length % 16) := by
  simp [encrypt_chunk, hlen, hiv, pkcs7pad_length]
  omega

/-! ## Properties of the fixed-size read loop -/

theorem chunkGo_fuel_irrel (c : Nat) (hc : 0 < c) :
    ∀ (fuel fuel' : Nat) (p : Bytes), p.length ≤ fuel → p.length ≤ fuel' →
      chunkGo c fuel p = chunkGo c fuel' p := by
  intro fuel
  induction fuel with
  | zero =>
    intro fuel' p hp _
    have : p = [] := List.eq_nil_of_length_eq_zero (by omega)
    subst this
    cases fuel' <;> rfl
  | succ n ih =>
    intro fuel' p hp hp'
    cases p with
    | nil => cases fuel' <;> rfl
    | cons a t =>
      cases fuel' with
      | zero => simp at hp'
      | succ m =>
        simp only [chunkGo]
        congr 1
        apply ih
        · simp only [List.length_drop, List.length_cons]
          simp at hp
          omega
        · simp only [List.length_drop, List.length_cons]
          simp at hp'
          omega

theorem chunkSplit_nil (c : Nat) : chunkSplit c [] = [] := by
  unfold chunkSplit
  split
  · rfl
  · rfl

theorem chunkSplit_cons (c : Nat) (hc : 0 < c) (p : Bytes) (hp : p ≠ []) :
    chunkSplit c p = p.take c :: chunkSplit c (p.drop c) := by
  obtain ⟨a, t, rfl⟩ := List.exists_cons_of_ne_nil hp
  unfold chunkSplit
  rw [if_neg (by omega), if_neg (by omega)]
  simp only [List.length_cons]
  simp only [chunkGo]
  congr 1
  apply chunkGo_fuel_irrel c hc
  · simp only [List.length_drop, List.length_cons]
    omega
  · exact le_rfl

theorem chunkSplit_flatten (c : Nat) (hc : 0 < c) (p : Bytes) :
    (chunkSplit c p).flatten = p := by
  have H : ∀ (n : Nat) (q : Bytes), q.length ≤ n → (chunkSplit c q).flatten = q := by
    intro n
    induction n with
    | zero =>
      intro q hq
      have : q = [] := List.eq_nil_of_length_eq_zero (by omega)
      subst this
      rw [chunkSplit_nil]
      rfl
    | succ n ih =>
      intro q hq
      by_cases h : q = []
      · subst h
        rw [chunkSplit_nil]
        rfl
      · have hqpos : 0 < q.length := List.length_pos.mpr h
        rw [chunkSplit_cons c hc q h, List.flatten_cons,
          ih (q.drop c) (by simp only [List.length_drop]; omega), List.take_append_drop]
  exact H p.length p le_rfl

theorem chunkSplit_mem (c : Nat) (hc : 0 < c) (p : Bytes) :
    ∀ u ∈ chunkSplit c p, 0 < u.length ∧ u.length ≤ c := by
  have H : ∀ (n : Nat) (q : Bytes), q.length ≤ n →
      ∀ u ∈ chunkSplit c q, 0 < u.length ∧ u.length ≤ c := by
    intro n
    induction n with
    | zero =>
      intro q hq u hu
      have : q = [] := List.eq_nil_of_length_eq_zero (by omega)
      subst this
      rw [chunkSplit_nil] at hu
      simp at hu
    | succ n ih =>
      intro q hq u hu
      by_cases h : q = []
      · subst h
        rw [chunkSplit_nil] at hu
        simp at hu
      · have hqpos : 0 < q.length := List.length_pos.mpr h
        rw [chunkSplit_cons c hc q h] at hu
        rcases List.mem_cons.mp hu with rfl | hu2
        · constructor
          · simp only [List.length_take]
            omega
          · simp only [List.length_take]
            omega
        · exact ih (q.drop c) (by simp only [List.length_drop]; omega) u hu2
  exact H p.length p le_rfl

theorem chunkSplit_dropLast (c : Nat) (hc : 0 < c) (p : Bytes) :
    ∀ u ∈ (chunkSplit c p).dropLast, u.length = c := by
  have H : ∀ (n : Nat) (q : Bytes), q.length ≤ n →
      ∀ u ∈ (chunkSplit c q).dropLast, u.length = c := by
    intro n
    induction n with
    | zero =>
      intro q hq u hu
      have : q = [] := List.eq_nil_of_length_eq_zero (by omega)
      subst this
      rw [chunkSplit_nil] at hu
      simp at hu
    | succ n ih =>
      intro q hq u hu
      by_cases h : q = []
      · subst h
        rw [chunkSplit_nil] at hu
        simp at hu
      · have hqpos : 0 < q.length := List.length_pos.mpr h
        rw [chunkSplit_cons c hc q h] at hu
        cases hrest : chunkSplit c (q.drop c) with
        | nil =>
          rw [hrest] at hu
          simp at hu
        | cons v rest2 =>
          rw [hrest, List.dropLast_cons_of_ne_nil (by simp)] at hu
          have hdropne : q.drop c ≠ [] := by
            intro hd
            rw [hd, chunkSplit_nil] at hrest
            exact List.noConfusion hrest
          have hlong : c < q.length := by
            by_contra hle
            exact hdropne (List.drop_eq_nil_of_le (by omega))
          rcases List.mem_cons.mp hu with rfl | hu2
          · simp only [List.length_take]
            omega
          · have := ih (q.drop c) (by simp only [List.length_drop]; omega)
            rw [hrest] at this
            exact this u hu2
  exact H p.length p le_rfl

theorem chunkSplit_of_units (m : Nat) (hm : 0 < m) :
    ∀ L : List Bytes, (∀ u ∈ L, 0 < u.length ∧ u.length ≤ m) →
      (∀ u ∈ L.dropLast, u.length = m) → chunkSplit m L.flatten = L := by
  intro L
  induction L with
  | nil =>
    intro _ _
    rw [List.flatten_nil, chunkSplit_nil]
  | cons u rest ih =>
    intro hall hfull
    cases rest with
    | nil =>
      have hu := hall u (List.mem_cons_self u [])
      have hune : u ≠ [] := by
        intro h
        rw [h] at hu
        simp at hu
      rw [List.flatten_cons, List.flatten_nil, List.append_nil,
        chunkSplit_cons m hm u hune, List.take_of_length_le hu.2,
        List.drop_eq_nil_of_le hu.2, chunkSplit_nil]
    | cons v rest2 =>
      have hum : u.length = m := by
        apply hfull
        rw [List.dropLast_cons₂]
        exact List.mem_cons_self u _
      have hune : u ≠ [] := by
        intro h
        rw [h] at hum
        simp at hum
        omega
      have hne : u ++ (v :: rest2).flatten ≠ [] := by
        simp [hune]
      rw [List.flatten_cons, chunkSplit_cons m hm _ hne, List.take_left' hum,
        List.drop_left' hum]
      congr 1
      apply ih
      · intro w hw
        exact hall w (List.mem_cons_of_mem u hw)
      · intro w hw
        apply hfull
        rw [List.dropLast_cons₂]
        exact List.mem_cons_of_mem u hw

/-! ## Unit lists produced by `encrypt_file` -/

theorem encUnits_spec (enc dec : Bytes → Bytes → Bytes → Bytes)
    (hlen : ∀ k iv x, (enc k iv x).length = x.length)
    (hinv : ∀ k iv x, x.length % 16 = 0 → dec k iv (enc k iv x) = x)
    (key : Bytes) (ivs : Nat → Bytes) (hiv : ∀ i, (ivs i).length = 16)
    (c : Nat) (hc16 : c % 16 = 0) :
    ∀ (L : List Bytes) (i : Nat),
      (∀ ch ∈ L, 0 < ch.length ∧ ch.length ≤ c) →
      (∀ ch ∈ L.dropLast, ch.length = c) →
      (∀ u ∈ encUnits enc key ivs i L, 0 < u.length ∧ u.length ≤ c + 32) ∧
      (∀ u ∈ (encUnits enc key ivs i L).dropLast, u.length = c + 32) ∧
      decryptUnits dec key (encUnits enc key ivs i L) = some L := by
  intro L
  induction L with
  | nil =>
    intro i _ _
    refine ⟨?_, ?_, ?_⟩ <;> simp [encUnits, decryptUnits]
  | cons ch rest ih =>
    intro i hall hfull
    have hulen : (encrypt_chunk enc key (ivs i) ch).length
        = 16 + ch.length + (16 - ch.length % 16) :=
      encrypt_chunk_length enc hlen key (ivs i) ch (hiv i)
    have hdc : decrypt_chunk dec key (encrypt_chunk enc key (ivs i) ch) = some ch :=
      decrypt_chunk_encrypt_chunk enc dec hlen hinv key (ivs i) ch (hiv i)
    have hch := hall ch (List.mem_cons_self ch rest)
    cases rest with
    | nil =>
      refine ⟨?_, ?_, ?_⟩
      · intro u hu
        simp only [encUnits, List.mem_cons, List.not_mem_nil, or_false] at hu
        subst hu
        constructor
        · omega
        · omega
      · simp [encUnits]
      · show decryptUnits dec key [encrypt_chunk enc key (ivs i) ch] = some [ch]
        simp only [decryptUnits, hdc]
    | cons ch2 rest2 =>
      have hchc : ch.length = c := by
        apply hfull
        rw [List.dropLast_cons₂]
        exact List.mem_cons_self ch _
      have hufull : (encrypt_chunk enc key (ivs i) ch).length = c + 32 := by
        omega
      obtain ⟨ihmem, ihfull, ihmap⟩ := ih (i + 1)
        (fun w hw => hall w (List.mem_cons_of_mem ch hw))
        (fun w hw => hfull w (by rw [List.dropLast_cons₂]; exact List.mem_cons_of_mem ch hw))
      refine ⟨?_, ?_, ?_⟩
      · intro u hu
        simp only [encUnits, List.mem_cons] at hu
        rcases hu with rfl | hu2
        · omega
        · exact ihmem u (by simp only [encUnits]; exact List.mem_cons.mpr hu2)
      · intro u hu
        have hne : encUnits enc key ivs (i + 1) (ch2 :: rest2) ≠ [] := by
          simp [encUnits]
        simp only [encUnits] at hu
        rw [List.dropLast_cons_of_ne_nil (by simp only [encUnits] at hne ⊢; exact hne)] at hu
        rcases List.mem_cons.mp hu with rfl | hu2
        · exact hufull
        · exact ihfull u (by simp only [encUnits]; exact hu2)
      · rw [show encUnits enc key ivs i (ch :: ch2 :: rest2)
            = encrypt_chunk enc key (ivs i) ch :: encUnits enc key ivs (i + 1) (ch2 :: rest2)
          from rfl]
        rw [decryptUnits, hdc]
        dsimp only
        rw [ihmap]

/-! ## C1: encrypt/decrypt container round trip -/

/-- C1: for every byte string `p` (including the empty one) and every
password, decrypting the container produced by `encrypt_file` with the same
password and chunk size recovers exactly `p`.  The chunk size must be a
positive multiple of the 16-byte AES block — the default `1024*1024` is —
because the decryptor re-reads the unframed units in fixed slices of
`chunk_size + 32` bytes.  Stated over any cipher pair `enc`/`dec` with the
library-guaranteed behavior (length preservation; decryption inverts
encryption on block-aligned data) and any deterministic key derivation
`kdf`, any 16-byte salt and any stream of 16-byte IVs. -/
theorem encrypt_then_decrypt_roundtrip
    (enc dec : Bytes → Bytes → Bytes → Bytes) (kdf : Bytes → Bytes → Bytes)
    (hlen : ∀ k iv x, (enc k iv x).length = x.length)
    (hinv : ∀ k iv x, x.length % 16 = 0 → dec k iv (enc k iv x) = x)
    (pw salt : Bytes) (hsalt : salt.length = 16)
    (ivs : Nat → Bytes) (hiv : ∀ i, (ivs i).length = 16)
    (c : Nat) (hc : 16 ∣ c) (hcpos : 0 < c) (p : Bytes) :
    decrypt_file dec kdf pw c (encrypt_file enc kdf pw salt ivs c p) = some p := by
  have hc16 : c % 16 = 0 := by omega
  unfold encrypt_file decrypt_file
  rw [List.take_left' hsalt, List.drop_left' hsalt]
  obtain ⟨hmem, hfull, hmap⟩ := encUnits_spec enc dec hlen hinv (kdf pw salt) ivs hiv c hc16
    (chunkSplit c p) 0 (chunkSplit_mem c hcpos p) (chunkSplit_dropLast c hcpos p)
  rw [show c + 16 + 16 = c + 32 from by omega]
  rw [chunkSplit_of_units (c + 32) (by omega) _ hmem hfull, hmap, Option.map_some',
    chunkSplit_flatten c hcpos p]

/-- Witness for C1 at a concrete instance: the identity cipher pair (which
satisfies both cipher hypotheses), a constant key derivation, the all-zero
salt and IVs, the chunk size 16 and a 20-byte plaintext (one full chunk
plus a short final chunk). -/
theorem encrypt_then_decrypt_roundtrip_witness :
    (∀ i : Nat, (List.replicate 16 0 : Bytes).length = 16) ∧ (16 ∣ 16) ∧ 0 < 16 ∧
    decrypt_file (fun _ _ x => x) (fun _ _ => []) [] 16
      (encrypt_file (fun _ _ x => x) (fun _ _ => []) [] (List.replicate 16 0)
        (fun _ => List.replicate 16 0) 16 (List.range 20)) = some (List.range 20) :=
  ⟨fun _ => rfl, by decide, by decide,
    encrypt_then_decrypt_roundtrip (fun _ _ x => x) (fun _ _ x => x) (fun _ _ => [])
      (fun _ _ _ => rfl) (fun _ _ _ _ => rfl) [] (List.replicate 16 0) rfl
      (fun _ => List.replicate 16 0) (fun _ => rfl) 16 (by decide) (by decide)
      (List.range 20)⟩

/-! ## C7: the zero-length chunk -/

/-- C7: encrypting a zero-length chunk yields exactly 32 bytes — the
16-byte IV followed by one full encrypted padding block — and decrypting
that unit with the same key returns the zero-length byte string. -/
theorem encrypt_empty_chunk_spec (enc dec : Bytes → Bytes → Bytes → Bytes)
    (hlen : ∀ k iv x, (enc k iv x).length = x.length)
    (hinv : ∀ k iv x, x.length % 16 = 0 → dec k iv (enc k iv x) = x)
    (key iv : Bytes) (hiv : iv.length = 16) :
    (encrypt_chunk enc key iv []).length = 32 ∧
    decrypt_chunk dec key (encrypt_chunk enc key iv []) = some [] := by
  constructor
  · rw [encrypt_chunk_length enc hlen key iv [] hiv]
    rfl
  · exact decrypt_chunk_encrypt_chunk enc dec hlen hinv key iv [] hiv

/-- Witness for C7: the identity cipher pair and the all-one IV. -/
theorem encrypt_empty_chunk_spec_witness :
    (List.replicate 16 1 : Bytes).length = 16 ∧
    (encrypt_chunk (fun _ _ x => x) [] (List.replicate 16 1) []).length = 32 ∧
    decrypt_chunk (fun _ _ x => x) [] (encrypt_chunk (fun _ _ x => x) [] (List.replicate 16 1) [])
      = some [] :=
  ⟨rfl,
    encrypt_empty_chunk_spec (fun _ _ x => x) (fun _ _ x => x) (fun _ _ _ => rfl)
      (fun _ _ _ _ => rfl) [] (List.replicate 16 1) rfl⟩

/-! ## C2: the container carries no per-unit length prefix -/

/-- C2 counterexample: at a concrete instance (identity cipher, constant
key derivation, all-zero salt and IVs, chunk size 16, the one-byte
plaintext `[0]`), the container `encrypt_file` writes is not the
length-prefixed layout the claim describes — the code writes 48 bytes
(salt plus one 32-byte unit), the claimed layout would be 52. -/
theorem container_lacks_length_frame :
    encrypt_file (fun _ _ x => x) (fun _ _ => []) [] (List.replicate 16 0)
        (fun _ => List.replicate 16 0) 16 [0]
      ≠ framedContainer (fun _ _ x => x) (fun _ _ => []) [] (List.replicate 16 0)
        (fun _ => List.replicate 16 0) 16 [0] := by
  decide

/-- Length facts about the unit list alone (no decryption involved): every
unit is non-empty and at most `c + 32` bytes, and every unit except the
last is exactly `c + 32` bytes, provided the chunk lengths have the shape
`chunkSplit` produces and `c` is a multiple of 16. -/
theorem encUnits_lengths (enc : Bytes → Bytes → Bytes → Bytes)
    (hlen : ∀ k iv x, (enc k iv x).length = x.length)
    (key : Bytes) (ivs : Nat → Bytes) (hiv : ∀ i, (ivs i).length = 16)
    (c : Nat) (hc16 : c % 16 = 0) :
    ∀ (L : List Bytes) (i : Nat),
      (∀ ch ∈ L, 0 < ch.length ∧ ch.length ≤ c) →
      (∀ ch ∈ L.dropLast, ch.length = c) →
      (∀ u ∈ encUnits enc key ivs i L, 0 < u.length ∧ u.length ≤ c + 32) ∧
      (∀ u ∈ (encUnits enc key ivs i L).dropLast, u.length = c + 32) := by
  intro L
  induction L with
  | nil =>
    intro i _ _
    exact ⟨by simp [encUnits], by simp [encUnits]⟩
  | cons ch rest ih =>
    intro i hall hfull
    have hulen : (encrypt_chunk enc key (ivs i) ch).length
        = 16 + ch.length + (16 - ch.length % 16) :=
      encrypt_chunk_length enc hlen key (ivs i) ch (hiv i)
    have hch := hall ch (List.mem_cons_self ch rest)
    cases rest with
    | nil =>
      refine ⟨?_, by simp [encUnits]⟩
      intro u hu
      simp only [encUnits, List.mem_cons, List.not_mem_nil, or_false] at hu
      subst hu
      omega
    | cons ch2 rest2 =>
      have hchc : ch.length = c := by
        apply hfull
        rw [List.dropLast_cons₂]
        exact List.mem_cons_self ch _
      obtain ⟨ihmem, ihfull⟩ := ih (i + 1)
        (fun w hw => hall w (List.mem_cons_of_mem ch hw))
        (fun w hw => hfull w (by rw [List.dropLast_cons₂]; exact List.mem_cons_of_mem ch hw))
      refine ⟨?_, ?_⟩
      · intro u hu
        simp only [encUnits, List.mem_cons] at hu
        rcases hu with rfl | hu2
        · omega
        · exact ihmem u (by simp [encUnits]; exact hu2)
      · intro u hu
        simp only [encUnits] at hu
        rw [List.dropLast_cons_of_ne_nil (by simp [encUnits])] at hu
        rcases List.mem_cons.mp hu with rfl | hu2
        · omega
        · exact ihfull u (by simp [encUnits]; exact hu2)

/-- C2 as amended: the container written by `encrypt_file` is the 16-byte
salt followed by the units in input order with no per-unit length prefix;
unit boundaries are not self-describing, but when the chunk size is a
positive multiple of 16 they are recoverable by re-reading fixed
`c + 32`-byte slices, which is exactly how `decrypt_file` recovers them. -/
theorem container_layout_and_alignment (enc : Bytes → Bytes → Bytes → Bytes)
    (kdf : Bytes → Bytes → Bytes) (pw salt : Bytes) (ivs : Nat → Bytes) (c : Nat) (p : Bytes)
    (hlen : ∀ k iv x, (enc k iv x).length = x.length)
    (hiv : ∀ i, (ivs i).length = 16) (hc : 16 ∣ c) (hcpos : 0 < c) :
    encrypt_file enc kdf pw salt ivs c p
      = salt ++ (encUnits enc (kdf pw salt) ivs 0 (chunkSplit c p)).flatten ∧
    chunkSplit (c + 32) ((encUnits enc (kdf pw salt) ivs 0 (chunkSplit c p)).flatten)
      = encUnits enc (kdf pw salt) ivs 0 (chunkSplit c p) := by
  have hc16 : c % 16 = 0 := by omega
  obtain ⟨hmem, hfull⟩ := encUnits_lengths enc hlen (kdf pw salt) ivs hiv c hc16
    (chunkSplit c p) 0 (chunkSplit_mem c hcpos p) (chunkSplit_dropLast c hcpos p)
  exact ⟨rfl, chunkSplit_of_units (c + 32) (by omega) _ hmem hfull⟩

/-- Witness for the amended C2 at the identity cipher, chunk size 16 and a
20-byte plaintext. -/
theorem container_layout_and_alignment_witness :
    (16 ∣ 16) ∧ 0 < 16 ∧
    (encrypt_file (fun _ _ x => x) (fun _ _ => []) [] (List.replicate 16 0)
        (fun _ => List.replicate 16 0) 16 (List.range 20)
      = List.replicate 16 0 ++
        (encUnits (fun _ _ x => x) [] (fun _ => List.replicate 16 0) 0
          (chunkSplit 16 (List.range 20))).flatten ∧
    chunkSplit 48
        ((encUnits (fun _ _ x => x) [] (fun _ => List.replicate 16 0) 0
          (chunkSplit 16 (List.range 20))).flatten)
      = encUnits (fun _ _ x => x) [] (fun _ => List.replicate 16 0) 0
          (chunkSplit 16 (List.range 20))) :=
  ⟨by decide, by decide,
    container_layout_and_alignment (fun _ _ x => x) (fun _ _ => []) [] (List.replicate 16 0)
      (fun _ => List.replicate 16 0) 16 (List.range 20) (fun _ _ _ => rfl) (fun _ => rfl)
      (by decide) (by decide)⟩

/-! ## Fragment name ordering -/

theorem lexLe_append_same (a x y : List Nat) : lexLe (a ++ x) (a ++ y) = lexLe x y := by
  induction a with
  | nil => rfl
  | cons c t ih => simp [lexLe, ih]

theorem pad3_le_of_le (i j : Nat) (hij : i ≤ j) (hj : j ≤ 999) :
    lexLe (pad3 i) (pad3 j) = true := by
  have hi : i ≤ 999 := by omega
  rw [pad3, pad3, if_pos hi, if_pos hj]
  show (decide (48 + i / 100 < 48 + j / 100) ||
    (decide (48 + i / 100 = 48 + j / 100) &&
      (decide (48 + i / 10 % 10 < 48 + j / 10 % 10) ||
        (decide (48 + i / 10 % 10 = 48 + j / 10 % 10) &&
          (decide (48 + i % 10 < 48 + j % 10) ||
            (decide (48 + i % 10 = 48 + j % 10) && true)))))) = true
  simp only [Bool.or_eq_true, Bool.and_eq_true, decide_eq_true_eq, Bool.and_true]
  have d1 := Nat.div_add_mod i 10
  have d2 := Nat.div_add_mod (i / 10) 10
  have d3 : i / 10 / 10 = i / 100 := by
    rw [Nat.div_div_eq_div_mul]
  have e1 := Nat.div_add_mod j 10
  have e2 := Nat.div_add_mod (j / 10) 10
  have e3 : j / 10 / 10 = j / 100 := by
    rw [Nat.div_div_eq_div_mul]
  have m1 : i % 10 < 10 := Nat.mod_lt _ (by omega)
  have m2 : i / 10 % 10 < 10 := Nat.mod_lt _ (by omega)
  have m3 : j % 10 < 10 := Nat.mod_lt _ (by omega)
  have m4 : j / 10 % 10 < 10 := Nat.mod_lt _ (by omega)
  rw [d3] at d2
  rw [e3] at e2
  omega

theorem fragPairs_sorted (stem : List Nat) (f : Nat → Bytes) (n : Nat) (hn : n ≤ 1000) :
    List.Sorted nameLe ((List.range n).map (fun i => (fragName stem i, f i))) := by
  rw [List.Sorted, List.pairwise_iff_getElem]
  intro i j hi hj hij
  simp only [List.length_map, List.length_range] at hi hj
  simp only [List.getElem_map, List.getElem_range]
  show lexLe (fragName stem i) (fragName stem j) = true
  unfold fragName
  rw [List.append_assoc, List.append_assoc, lexLe_append_same stem, lexLe_append_same partCodes]
  exact pad3_le_of_le i j (by omega) (by omega)

/-! ## The `*.part*` glob -/

theorem hasSub_append_self (pat y : List Nat) : hasSub pat (pat ++ y) = true := by
  cases pat with
  | nil =>
    cases y with
    | nil => rfl
    | cons b t => simp [hasSub, List.isPrefixOf]
  | cons a t =>
    have hpre : (a :: t).isPrefixOf ((a :: t) ++ y) = true := by
      rw [List.isPrefixOf_iff_prefix]
      exact List.prefix_append _ _
    show hasSub (a :: t) (a :: (t ++ y)) = true
    simp [hasSub]

theorem hasSub_append_of_self (pat x y : List Nat) : hasSub pat (x ++ (pat ++ y)) = true := by
  induction x with
  | nil => exact hasSub_append_self pat y
  | cons b t ih => simp [hasSub, ih]

theorem hasSub_fragName (stem : List Nat) (i : Nat) :
    hasSub partCodes (fragName stem i) = true := by
  rw [fragName, List.append_assoc]
  exact hasSub_append_of_self partCodes stem (pad3 i)

/-! ## Fragment contents are the chunk slices -/

theorem frag_data_eq_chunkSplit (s : Nat) (hs : 0 < s) (p : Bytes) :
    (List.range ((p.length + s - 1) / s)).map (fun i => (p.drop (i * s)).take s)
      = chunkSplit s p := by
  have H : ∀ (fuel : Nat) (q : Bytes), q.length ≤ fuel →
      (List.range ((q.length + s - 1) / s)).map (fun i => (q.drop (i * s)).take s)
        = chunkSplit s q := by
    intro fuel
    induction fuel with
    | zero =>
      intro q hq
      have : q = [] := List.eq_nil_of_length_eq_zero (by omega)
      subst this
      rw [chunkSplit_nil]
      have hz : (s - 1) / s = 0 := Nat.div_eq_of_lt (by omega)
      simp [hz]
    | succ fuel ih =>
      intro q hq
      by_cases h : q = []
      · subst h
        rw [chunkSplit_nil]
        have hz : (s - 1) / s = 0 := Nat.div_eq_of_lt (by omega)
        simp [hz]
      · have hqpos : 0 < q.length := List.length_pos.mpr h
        have hceil : (q.length + s - 1) / s = (q.length - 1) / s + 1 := by
          rw [show q.length + s - 1 = (q.length - 1) + s from by omega,
            Nat.add_div_right _ hs]
        have hdroplen : (q.drop s).length = q.length - s := by
          simp
        have hceil2 : ((q.drop s).length + s - 1) / s = (q.length - 1) / s := by
          rw [hdroplen]
          by_cases hls : q.length ≤ s
          · have h1 : q.length - s = 0 := by omega
            rw [h1]
            have h2 : (0 + s - 1) / s = 0 := Nat.div_eq_of_lt (by omega)
            have h3 : (q.length - 1) / s = 0 := Nat.div_eq_of_lt (by omega)
            rw [h2, h3]
          · rw [show q.length - s + s - 1 = (q.length - s - 1) + s from by omega,
              Nat.add_div_right _ hs,
              show q.length - 1 = (q.length - s - 1) + s from by omega,
              Nat.add_div_right _ hs]
        rw [chunkSplit_cons s hs q h, hceil, List.range_succ_eq_map, List.map_cons,
          List.map_map]
        congr 1
        · simp
        · rw [← ih (q.drop s) (by simp only [List.length_drop]; omega), hceil2]
          apply List.map_congr_left
          intro i _
          simp only [Function.comp_apply]
          rw [List.drop_drop, Nat.succ_mul, Nat.add_comm (i * s) s]
  exact H p.length p le_rfl

/-! ## C6: fragmentation round trip -/

/-- C6 as amended: for every non-empty byte string and every fragment size
`s ≥ 1` that produces at most 1000 fragments, reassembling the fragment set
with its manifest returns exactly `p` with no size warning.  The two
restrictions are forced by the code: a zero-byte input produces no
fragments and `restore_fragments` then raises its no-fragments error
(see the counterexample and C10), and from the 1001st fragment on the
lexicographic name sort diverges from index order (`"x.part1000"` sorts
before `"x.part101"`, see `fragName_order_diverges_beyond_999`). -/
theorem fragment_restore_roundtrip (stem : List Nat) (s : Nat) (p : Bytes)
    (hs : 0 < s) (hp : p ≠ []) (hn : (p.length + s - 1) / s ≤ 1000) :
    restore_fragments (fragment_file stem s p).2 (fragment_file stem s p).1
      = Except.ok (p, none) := by
  have hfrags : (fragment_file stem s p).1
      = (List.range ((p.length + s - 1) / s)).map
          (fun i => (fragName stem i, (p.drop (i * s)).take s)) := rfl
  have hmd : (fragment_file stem s p).2.file_size = p.length := rfl
  have hfilter : ((fragment_file stem s p).1.filter (fun e => hasSub partCodes e.1))
      = (fragment_file stem s p).1 := by
    rw [List.filter_eq_self]
    intro e he
    rw [hfrags] at he
    obtain ⟨i, _, rfl⟩ := List.mem_map.mp he
    exact hasSub_fragName stem i
  have hsorted : List.Sorted nameLe (fragment_file stem s p).1 := by
    rw [hfrags]
    exact fragPairs_sorted stem _ _ hn
  have hsnd : (fragment_file stem s p).1.map Prod.snd = chunkSplit s p := by
    rw [hfrags, List.map_map]
    exact frag_data_eq_chunkSplit s hs p
  have hne : (fragment_file stem s p).1 ≠ [] := by
    rw [hfrags]
    have hn1 : 1 ≤ (p.length + s - 1) / s := by
      apply (Nat.le_div_iff_mul_le hs).mpr
      have : 0 < p.length := List.length_pos.mpr hp
      omega
    intro hcon
    have := congrArg List.length hcon
    simp at this
    omega
  simp only [restore_fragments]
  rw [hfilter, hsorted.insertionSort_eq]
  rw [if_neg (by rw [List.isEmpty_eq_false.mpr hne]; exact Bool.false_ne_true)]
  rw [hsnd, chunkSplit_flatten s hs p, hmd, if_pos rfl]

/-- C6 counterexample: the round trip as claimed — for every byte string
`p`, hence also the empty one — fails at `p = []`: fragmentation produces
no fragment files, and `restore_fragments` then raises its no-fragments
error instead of returning the empty byte string. -/
theorem empty_input_roundtrip_fails :
    restore_fragments (fragment_file [100] 1 []).2 (fragment_file [100] 1 []).1
      = Except.error RestoreError.noFragments ∧
    ∀ w, restore_fragments (fragment_file [100] 1 []).2 (fragment_file [100] 1 []).1
      ≠ Except.ok ([], w) := by
  have h1 : restore_fragments (fragment_file [100] 1 []).2 (fragment_file [100] 1 []).1
      = Except.error RestoreError.noFragments := by decide
  exact ⟨h1, fun w hw => by rw [h1] at hw; exact Except.noConfusion hw⟩

/-- Witness for the amended C6: stem `"d"`, fragment size 3, the 8-byte
input `0,...,7` (three fragments: two full, one short). -/
theorem fragment_restore_roundtrip_witness :
    0 < 3 ∧ List.range 8 ≠ ([] : Bytes) ∧ ((List.range 8 : Bytes).length + 3 - 1) / 3 ≤ 1000 ∧
    restore_fragments (fragment_file [100] 3 (List.range 8)).2
        (fragment_file [100] 3 (List.range 8)).1
      = Except.ok (List.range 8, none) :=
  ⟨by decide, by decide, by decide,
    fragment_restore_roundtrip [100] 3 (List.range 8) (by decide) (by decide) (by decide)⟩

/-- Names from index 1000 on break the lexicographic order: `"d.part1000"`
sorts strictly before `"d.part101"`, so a fragmentation into 1001 or more
fragments is reassembled in the wrong order. -/
theorem fragName_order_diverges_beyond_999 :
    lexLe (fragName [100] 1000) (fragName [100] 101) = true ∧
    fragName [100] 1000 ≠ fragName [100] 101 := by
  decide

/-! ## C10: the zero-byte input -/

/-- C10: fragmenting a zero-byte input produces no fragment files but still
a manifest with fragment count 0, and `restore_fragments` on that fragment
set raises the no-fragments error instead of returning the empty byte
string — the fragmentation round trip fails at the empty input. -/
theorem empty_input_fragment_manifest (stem : List Nat) (s : Nat) (hs : 0 < s) :
    (fragment_file stem s []).1 = [] ∧
    (fragment_file stem s []).2.num_fragments = 0 ∧
    restore_fragments (fragment_file stem s []).2 (fragment_file stem s []).1
      = Except.error RestoreError.noFragments := by
  have hz : (s - 1) / s = 0 := Nat.div_eq_of_lt (by omega)
  have h1 : (fragment_file stem s []).1 = [] := by
    show (List.range ((List.length ([] : Bytes) + s - 1) / s)).map _ = []
    simp [hz]
  refine ⟨h1, ?_, ?_⟩
  · show (List.length ([] : Bytes) + s - 1) / s = 0
    simp [hz]
  · simp only [restore_fragments, h1]
    rfl

/-- Witness for C10 at stem `"d"` and fragment size 1. -/
theorem empty_input_fragment_manifest_witness :
    0 < 1 ∧
    ((fragment_file [100] 1 []).1 = [] ∧
     (fragment_file [100] 1 []).2.num_fragments = 0 ∧
     restore_fragments (fragment_file [100] 1 []).2 (fragment_file [100] 1 []).1
       = Except.error RestoreError.noFragments) :=
  ⟨by decide, empty_input_fragment_manifest [100] 1 (by decide)⟩

/-! ## C3: flipping a byte in a fragment -/

/-- C3 counterexample: fragment `[0, 1]` at size 1 (fragments `d.part000 =
[0]`, `d.part001 = [1]`), then flip the single byte of `d.part000` to `5`.
`restore_fragments` raises nothing — it has no checksum verification — and
returns the tampered concatenation `[5, 1]` with no warning (the length is
unchanged, so even the size check passes), contradicting the claimed
`CorruptFragmentError`. -/
theorem tampered_fragment_accepted :
    (fragment_file [100] 1 [0, 1]).1
      = [(fragName [100] 0, [0]), (fragName [100] 1, [1])] ∧
    restore_fragments (fragment_file [100] 1 [0, 1]).2
        [(fragName [100] 0, [5]), (fragName [100] 1, [1])]
      = Except.ok ([5, 1], none) ∧
    ([5, 1] : Bytes) ≠ [0, 1] :=
  ⟨by decide, by decide, by decide⟩

/-- C3 as amended: `restore_fragments` performs no integrity check at all.
Whatever value `x` the first fragment's byte is changed to, reassembly
succeeds, returns `[x, 1]` without any warning, and the result differs
from the original exactly when the byte was actually changed.  (Only the
generated standalone `rebuild.py` script verifies MD5 checksums, and it
stops at the first mismatch.) -/
theorem tamper_goes_undetected (x : Nat) :
    restore_fragments (fragment_file [100] 1 [0, 1]).2
        [(fragName [100] 0, [x]), (fragName [100] 1, [1])]
      = Except.ok ([x, 1], none) ∧
    (x ≠ 0 → ([x, 1] : Bytes) ≠ [0, 1]) := by
  constructor
  · rfl
  · intro hx h
    injection h with h1 _
    exact hx h1

/-- Witness for the amended C3 at the flipped byte value 5. -/
theorem tamper_goes_undetected_witness :
    restore_fragments (fragment_file [100] 1 [0, 1]).2
        [(fragName [100] 0, [5]), (fragName [100] 1, [1])]
      = Except.ok ([5, 1], none) ∧
    ([5, 1] : Bytes) ≠ [0, 1] :=
  ⟨(tamper_goes_undetected 5).1, (tamper_goes_undetected 5).2 (by decide)⟩

/-! ## C5: absent fragments -/

/-- C5 counterexample: the manifest of `fragment_file [100] 1 [0, 1]` names
two fragments; presenting a directory holding only `d.part000`,
`restore_fragments` raises no missing-fragments error — it concatenates the
present fragment and returns `[0]`, reporting only the non-fatal size
warning `(expected 2, actual 1)`. -/
theorem missing_fragment_accepted :
    (fragment_file [100] 1 [0, 1]).2.fragments
      = [fragName [100] 0, fragName [100] 1] ∧
    restore_fragments (fragment_file [100] 1 [0, 1]).2 [(fragName [100] 0, [0])]
      = Except.ok ([0], some (2, 1)) :=
  ⟨by decide, by decide⟩

theorem map_eraseIdx {α β : Type} (f : α → β) :
    ∀ (l : List α) (i : Nat), (l.eraseIdx i).map f = (l.map f).eraseIdx i := by
  intro l
  induction l with
  | nil => intro i; cases i <;> rfl
  | cons a t ih =>
    intro i
    cases i with
    | zero => rfl
    | succ m => simp [List.eraseIdx, ih]

theorem flatten_eraseIdx_length (L : List Bytes) (i : Nat) (hi : i < L.length) :
    ((L.eraseIdx i).flatten).length + L[i].length = L.flatten.length := by
  have h1 : L.take i ++ L[i] :: L.drop (i + 1) = L := by
    rw [List.getElem_cons_drop, List.take_append_drop]
  have h2 : L.flatten.length
      = (L.take i).flatten.length + (L[i].length + (L.drop (i + 1)).flatten.length) := by
    conv_lhs => rw [← h1]
    rw [List.flatten_append, List.flatten_cons]
    simp [List.length_append]
  rw [List.eraseIdx_eq_take_drop_succ, List.flatten_append, List.length_append, h2]
  omega

/-- C5 as amended: `restore_fragments` never checks the manifest's fragment
list against the directory.  Removing any one fragment from a fragment set
of two or more (at most 1000, so the name order is the index order) still
yields a successful reassembly of the remaining fragments in order, with
the absence surfacing only as the non-fatal size warning
`(expected = total size, actual = shorter length)`. -/
theorem missing_fragment_silent_restore (stem : List Nat) (s : Nat) (p : Bytes) (i : Nat)
    (hs : 0 < s) (hn : (p.length + s - 1) / s ≤ 1000) (hi : i < (p.length + s - 1) / s)
    (h2 : 2 ≤ (p.length + s - 1) / s) :
    restore_fragments (fragment_file stem s p).2 ((fragment_file stem s p).1.eraseIdx i)
      = Except.ok (((chunkSplit s p).eraseIdx i).flatten,
          some (p.length, ((chunkSplit s p).eraseIdx i).flatten.length)) ∧
    ((chunkSplit s p).eraseIdx i).flatten.length < p.length := by
  have hp : p ≠ [] := by
    intro hcon
    subst hcon
    have hz : ((List.length ([] : Bytes)) + s - 1) / s = 0 := by
      simp
      exact Nat.div_eq_of_lt (by omega)
    omega
  have hfrags : (fragment_file stem s p).1
      = (List.range ((p.length + s - 1) / s)).map
          (fun j => (fragName stem j, (p.drop (j * s)).take s)) := rfl
  have hmd : (fragment_file stem s p).2.file_size = p.length := rfl
  have hsnd : (fragment_file stem s p).1.map Prod.snd = chunkSplit s p := by
    rw [hfrags, List.map_map]
    exact frag_data_eq_chunkSplit s hs p
  have hchunklen : (chunkSplit s p).length = (p.length + s - 1) / s := by
    rw [← frag_data_eq_chunkSplit s hs p]
    simp
  have hfragslen : (fragment_file stem s p).1.length = (p.length + s - 1) / s := by
    rw [hfrags]
    simp
  -- the erased directory still filters to itself
  have hfilter : (((fragment_file stem s p).1.eraseIdx i).filter
        (fun e => hasSub partCodes e.1))
      = (fragment_file stem s p).1.eraseIdx i := by
    rw [List.filter_eq_self]
    intro e he
    have he2 : e ∈ (fragment_file stem s p).1 := List.mem_of_mem_eraseIdx he
    rw [hfrags] at he2
    obtain ⟨j, _, rfl⟩ := List.mem_map.mp he2
    exact hasSub_fragName stem j
  have hsorted : List.Sorted nameLe ((fragment_file stem s p).1.eraseIdx i) := by
    apply List.Pairwise.sublist (List.eraseIdx_sublist _ i)
    rw [hfrags]
    exact fragPairs_sorted stem _ _ hn
  have hne : (fragment_file stem s p).1.eraseIdx i ≠ [] := by
    intro hcon
    have := congrArg List.length hcon
    rw [List.length_eraseIdx_of_lt (by omega)] at this
    simp at this
    omega
  have hsnd2 : ((fragment_file stem s p).1.eraseIdx i).map Prod.snd
      = (chunkSplit s p).eraseIdx i := by
    rw [map_eraseIdx, hsnd]
  have hilen : i < (chunkSplit s p).length := by omega
  have hchunkpos : 0 < (chunkSplit s p)[i].length := by
    have hmem := chunkSplit_mem s hs p (chunkSplit s p)[i] (List.getElem_mem hilen)
    exact hmem.1
  have hflat : (chunkSplit s p).flatten.length = p.length := by
    rw [chunkSplit_flatten s hs p]
  have hler := flatten_eraseIdx_length (chunkSplit s p) i hilen
  have hlt : ((chunkSplit s p).eraseIdx i).flatten.length < p.length := by
    omega
  refine ⟨?_, hlt⟩
  simp only [restore_fragments]
  rw [hfilter, hsorted.insertionSort_eq]
  rw [if_neg (by rw [List.isEmpty_eq_false.mpr hne]; exact Bool.false_ne_true)]
  rw [hsnd2, hmd, if_neg (by omega)]

/-- Witness for the amended C5: the 8-byte input fragmented at size 3
(three fragments) with fragment index 1 removed; reassembly returns the
six remaining bytes and the size warning `(8, 5)`. -/
theorem missing_fragment_silent_restore_witness :
    0 < 3 ∧ (((List.range 8 : Bytes).length + 3 - 1) / 3 ≤ 1000) ∧
    (1 < ((List.range 8 : Bytes).length + 3 - 1) / 3) ∧
    (2 ≤ ((List.range 8 : Bytes).length + 3 - 1) / 3) ∧
    restore_fragments (fragment_file [100] 3 (List.range 8)).2
        ((fragment_file [100] 3 (List.range 8)).1.eraseIdx 1)
      = Except.ok (((chunkSplit 3 (List.range 8)).eraseIdx 1).flatten,
          some ((List.range 8 : Bytes).length,
            ((chunkSplit 3 (List.range 8)).eraseIdx 1).flatten.length)) ∧
    ((chunkSplit 3 (List.range 8)).eraseIdx 1).flatten.length < (List.range 8 : Bytes).length :=
  ⟨by decide, by decide, by decide, by decide,
    (missing_fragment_silent_restore [100] 3 (List.range 8) 1
      (by decide) (by decide) (by decide) (by decide)).1,
    (missing_fragment_silent_restore [100] 3 (List.range 8) 1
      (by decide) (by decide) (by decide) (by decide)).2⟩

/-! ## C8: the size check warns and continues -/

/-- C8: whenever any `*.part*` entries are present, `restore_fragments`
succeeds and returns the assembled bytes; the size check never aborts.  A
successful result carries `none` exactly when the manifest's `file_size`
equals the assembled length, and otherwise the warning pair is exactly
`(expected = file_size, actual = assembled length)`. -/
theorem restore_size_check_nonfatal (md : Metadata) (dir : List (List Nat × Bytes))
    (hne : dir.filter (fun e => hasSub partCodes e.1) ≠ []) :
    (restore_fragments md dir).isOk = true ∧
    ∀ out warn, restore_fragments md dir = Except.ok (out, warn) →
      (warn = none ↔ md.file_size = out.length) ∧
      ∀ e a, warn = some (e, a) → e = md.file_size ∧ a = out.length := by
  have hsne : List.insertionSort nameLe (dir.filter (fun e => hasSub partCodes e.1)) ≠ [] := by
    intro hcon
    have hlen := congrArg List.length hcon
    rw [(List.perm_insertionSort nameLe _).length_eq] at hlen
    simp only [List.length_nil] at hlen
    exact hne (List.length_eq_zero.mp hlen)
  have hcond : (List.insertionSort nameLe
      (dir.filter (fun e => hasSub partCodes e.1))).isEmpty ≠ true := by
    rw [List.isEmpty_eq_false.mpr hsne]
    exact Bool.false_ne_true
  constructor
  · simp only [restore_fragments]
    rw [if_neg hcond]
    rfl
  · intro out warn h
    simp only [restore_fragments] at h
    rw [if_neg hcond] at h
    have hpair := Except.ok.inj h
    rw [Prod.ext_iff] at hpair
    obtain ⟨h5, h6⟩ := hpair
    dsimp at h5 h6
    rw [← h5, ← h6]
    by_cases hsz : md.file_size
        = ((List.insertionSort nameLe (dir.filter (fun e => hasSub partCodes e.1))).map
            Prod.snd).flatten.length
    · rw [if_pos hsz]
      refine ⟨⟨fun _ => hsz, fun _ => rfl⟩, ?_⟩
      intro e a hcon
      exact Option.noConfusion hcon
    · rw [if_neg hsz]
      refine ⟨⟨fun hcon => Option.noConfusion hcon, fun heq => absurd heq hsz⟩, ?_⟩
      intro e a hsome
      have := Option.some.inj hsome
      rw [Prod.ext_iff] at this
      obtain ⟨he, ha⟩ := this
      exact ⟨he.symm, ha.symm⟩

/-- Witness for C8: the two-fragment manifest of `[0, 1]` against a
directory holding only the first fragment (the mismatch case: the result is
`ok` with warning `(2, 1)`). -/
theorem restore_size_check_nonfatal_witness :
    ([(fragName [100] 0, ([0] : Bytes))].filter (fun e => hasSub partCodes e.1) ≠ []) ∧
    (restore_fragments (fragment_file [100] 1 [0, 1]).2
      [(fragName [100] 0, [0])]).isOk = true :=
  ⟨by decide,
    (restore_size_check_nonfatal (fragment_file [100] 1 [0, 1]).2
      [(fragName [100] 0, [0])] (by decide)).1⟩

/-! ## C9: fragment count, sizes and names -/

/-- C9: for every source and every fragment size `s ≥ 1`, `fragment_file`
produces `num_fragments` fragments with `p.length ≤ s * count < p.length + s`
(the characterization of `count = ceil(p.length / s)`); every fragment
except the last holds exactly `s` bytes; the last fragment holds
`p.length mod s` bytes, or a full `s` when `s` divides `p.length`; and the
name of the fragment at index `i` is `stem ++ ".part" ++ i` zero-padded to
three digits. -/
theorem fragment_count_sizes_names (stem : List Nat) (s : Nat) (p : Bytes) (hs : 0 < s) :
    ((fragment_file stem s p).1.length = (fragment_file stem s p).2.num_fragments ∧
      p.length ≤ s * (fragment_file stem s p).1.length ∧
      s * (fragment_file stem s p).1.length < p.length + s) ∧
    (∀ e ∈ (fragment_file stem s p).1.dropLast, e.2.length = s) ∧
    (p ≠ [] → ((fragment_file stem s p).1.getLast?).map (fun e => e.2.length)
      = some (if p.length % s = 0 then s else p.length % s)) ∧
    ∀ i : Nat, ((fragment_file stem s p).1.map Prod.fst)[i]?
      = if i < (fragment_file stem s p).2.num_fragments
        then some (stem ++ partCodes ++ pad3 i) else none := by
  have hfrags : (fragment_file stem s p).1
      = (List.range ((p.length + s - 1) / s)).map
          (fun i => (fragName stem i, (p.drop (i * s)).take s)) := rfl
  have hnum : (fragment_file stem s p).2.num_fragments = (p.length + s - 1) / s := rfl
  have hfragslen : (fragment_file stem s p).1.length = (p.length + s - 1) / s := by
    rw [hfrags]
    simp
  obtain ⟨k, hk⟩ : ∃ k, k = s * ((p.length + s - 1) / s) := ⟨_, rfl⟩
  have hdm := Nat.div_add_mod (p.length + s - 1) s
  rw [← hk] at hdm
  have hmlt : (p.length + s - 1) % s < s := Nat.mod_lt _ hs
  have hkb : p.length ≤ k ∧ k < p.length + s := by
    constructor <;> omega
  refine ⟨⟨by rw [hfragslen, hnum], by rw [hfragslen, ← hk]; exact hkb.1,
      by rw [hfragslen, ← hk]; exact hkb.2⟩, ?_, ?_, ?_⟩
  · -- all fragments but the last hold exactly s bytes
    intro e he
    have hsnd : (fragment_file stem s p).1.map Prod.snd = chunkSplit s p := by
      rw [hfrags, List.map_map]
      exact frag_data_eq_chunkSplit s hs p
    have hmem : e.2 ∈ (chunkSplit s p).dropLast := by
      rw [← hsnd, ← List.map_dropLast]
      exact List.mem_map_of_mem Prod.snd he
    exact chunkSplit_dropLast s hs p e.2 hmem
  · -- the last fragment
    intro hp
    have hppos : 0 < p.length := List.length_pos.mpr hp
    have hn1 : 1 ≤ (p.length + s - 1) / s := by
      apply (Nat.le_div_iff_mul_le hs).mpr
      omega
    obtain ⟨m, hm⟩ : ∃ m, (p.length + s - 1) / s = m + 1
      := ⟨(p.length + s - 1) / s - 1, by omega⟩
    obtain ⟨q, hq⟩ : ∃ q, q = s * m := ⟨_, rfl⟩
    have hk2 : k = q + s := by
      rw [hk, hm, hq]
      ring
    have hlow : q < p.length := by omega
    have hhigh : p.length ≤ q + s := by omega
    rw [hfrags, hm, List.getLast?_map, List.range_succ, List.getLast?_concat]
    simp only [Option.map_some']
    congr 1
    show ((p.drop (m * s)).take s).length = _
    have hmod : p.length % s = (p.length - q) % s := by
      conv_lhs => rw [show p.length = s * m + (p.length - q) from by rw [← hq]; omega]
      rw [Nat.mul_add_mod, hq]
    simp only [List.length_take, List.length_drop]
    rw [show m * s = q from by rw [hq, Nat.mul_comm], hmod]
    by_cases hrs : p.length - q = s
    · rw [hrs, Nat.mod_self, if_pos rfl]
      omega
    · have hrlt : p.length - q < s := by omega
      rw [Nat.mod_eq_of_lt hrlt, if_neg (by omega)]
      omega
  · -- names
    intro i
    rw [hfrags, hnum, List.map_map]
    by_cases hin : i < (p.length + s - 1) / s
    · rw [if_pos hin, List.getElem?_map, List.getElem?_range hin]
      rfl
    · rw [if_neg hin, List.getElem?_eq_none]
      simp only [List.length_map, List.length_range]
      omega

/-- Witness for C9: stem `"d"`, fragment size 3, the 8-byte input. -/
theorem fragment_count_sizes_names_witness :
    0 < 3 ∧
    ((fragment_file [100] 3 (List.range 8)).1.length
        = (fragment_file [100] 3 (List.range 8)).2.num_fragments ∧
      (List.range 8 : Bytes).length ≤ 3 * (fragment_file [100] 3 (List.range 8)).1.length ∧
      3 * (fragment_file [100] 3 (List.range 8)).1.length < (List.range 8 : Bytes).length + 3) ∧
    (∀ e ∈ (fragment_file [100] 3 (List.range 8)).1.dropLast, e.2.length = 3) ∧
    (List.range 8 ≠ ([] : Bytes) →
      ((fragment_file [100] 3 (List.range 8)).1.getLast?).map (fun e => e.2.length)
        = some (if (List.range 8 : Bytes).length % 3 = 0 then 3
            else (List.range 8 : Bytes).length % 3)) ∧
    ∀ i : Nat, ((fragment_file [100] 3 (List.range 8)).1.map Prod.fst)[i]?
      = if i < (fragment_file [100] 3 (List.range 8)).2.num_fragments
        then some ([100] ++ partCodes ++ pad3 i) else none :=
  ⟨by decide, fragment_count_sizes_names [100] 3 (List.range 8) (by decide)⟩

end Backup
